import Mathlib

/-!
Verification of the fixed-point complex-array engine `ComplexShortArray.h`
(types `ComplexShort`, `ComplexShortArray`, `ComplexInt`, `ComplexIntArray`).

Machine integers (`int16_t`, `int32_t`) are embedded as `ℤ`; where the C code
truncates a wider value into `int16_t`, the modular wrap `wrap16` is applied
explicitly.  Arrays are embedded as Lean lists holding the element region the
C array view designates; the `size` field of a view is the list length.

The header compiles only with `ARM_CORTEX` defined (the portable branch of
`ComplexShort::getMagnitude` contains `#error TODO`), so the hardware CMSIS
primitives are the operative execution path.  Those primitives are external to
the repository and are modelled from the spec, which treats them as
already-correct black boxes with documented scaling; each such model carries a
doc comment starting `Modelled from the spec:`.  The portable scalar loops of
`ComplexIntArray` are embedded directly from the source as well, so the two
paths can be compared.
-/

/-- Fixed point complex number held as two `int16_t` members (source line 11). -/
structure ComplexShort where
  re : ℤ
  im : ℤ
deriving DecidableEq, Repr

/-- Fixed point complex number held as two `int32_t` members (source line 480). -/
structure ComplexInt where
  re : ℤ
  im : ℤ
deriving DecidableEq, Repr

/-- The value a C cast `(int16_t)x` produces from a wider integer `x`:
the low 16 bits reinterpreted as a signed 16-bit value. -/
def wrap16 (x : ℤ) : ℤ :=
  Int.emod (x + 2 ^ 15) (2 ^ 16) - 2 ^ 15

/-- A value representable in `int16_t`. -/
def inRange16 (x : ℤ) : Prop :=
  -(2 ^ 15) ≤ x ∧ x < 2 ^ 15

instance (x : ℤ) : Decidable (inRange16 x) := by
  unfold inRange16; infer_instance

theorem wrap16_eq_self {x : ℤ} (h : inRange16 x) : wrap16 x = x := by
  obtain ⟨h1, h2⟩ := h
  have : Int.emod (x + 2 ^ 15) (2 ^ 16) = x + 2 ^ 15 :=
    Int.emod_eq_of_lt (by omega) (by omega)
  unfold wrap16
  omega

namespace ComplexShortArray

/-- The element-by-element comparison loop of `ComplexShortArray::equals`
(source lines 308-312): scan in index order, stopping at the first mismatch
of a real or imaginary part. -/
def equalsLoop : List ComplexShort → List ComplexShort → Bool
  | [], _ => true
  | _ :: _, [] => true
  | a :: as, b :: bs =>
    if a.re ≠ b.re ∨ a.im ≠ b.im then false else equalsLoop as bs

/-- `ComplexShortArray::equals` (source lines 304-314): sizes are compared
first, then the elements are scanned. -/
def equals (a b : List ComplexShort) : Bool :=
  if a.length ≠ b.length then false
  else equalsLoop a b

/-- `ComplexShortArray::getSize` (source line 210). -/
def getSize (a : List ComplexShort) : ℕ :=
  a.length

/-- The default-constructed `ComplexShortArray` (source lines 92-93):
`data` is the null pointer, `size` is 0, so the designated element region
is empty. -/
def defaultArray : List ComplexShort := []

end ComplexShortArray

theorem equalsLoop_eq_true_iff (a b : List ComplexShort) (h : a.length = b.length) :
    ComplexShortArray.equalsLoop a b = true ↔
      ∀ (i : ℕ) (ha : i < a.length) (hb : i < b.length),
        (a.get ⟨i, ha⟩).re = (b.get ⟨i, hb⟩).re ∧
        (a.get ⟨i, ha⟩).im = (b.get ⟨i, hb⟩).im := by
  induction a generalizing b with
  | nil =>
    cases b with
    | nil => simp [ComplexShortArray.equalsLoop]
    | cons y ys => simp at h
  | cons x xs ih =>
    cases b with
    | nil => simp at h
    | cons y ys =>
      simp only [List.length_cons, Nat.add_right_cancel_iff] at h
      rw [ComplexShortArray.equalsLoop]
      by_cases hre : x.re = y.re
      · by_cases him : x.im = y.im
        · simp only [hre, him, ne_eq, not_true_eq_false, false_or, or_self, if_false]
          rw [ih ys h]
          constructor
          · intro hall i hi hi'
            match i with
            | 0 => exact ⟨hre, him⟩
            | j + 1 =>
              exact hall j (Nat.lt_of_succ_lt_succ hi) (Nat.lt_of_succ_lt_succ hi')
          · intro hall i hi hi'
            exact hall (i + 1) (Nat.succ_lt_succ hi) (Nat.succ_lt_succ hi')
        · simp only [ne_eq, him, not_false_eq_true, or_true, if_true]
          constructor
          · intro hfalse; cases hfalse
          · intro hall
            exact absurd (hall 0 (Nat.succ_pos _) (Nat.succ_pos _)).2 him
      · simp only [ne_eq, hre, not_false_eq_true, true_or, if_true]
        constructor
        · intro hfalse; cases hfalse
        · intro hall
          exact absurd (hall 0 (Nat.succ_pos _) (Nat.succ_pos _)).1 hre

/-- C4: `equals` returns `false` on arrays of different sizes; on equal sizes
it returns `true` iff every element matches in both components under exact
integer equality. -/
theorem equals_spec (a b : List ComplexShort) :
    (a.length ≠ b.length → ComplexShortArray.equals a b = false) ∧
    (a.length = b.length →
      (ComplexShortArray.equals a b = true ↔
        ∀ (i : ℕ) (ha : i < a.length) (hb : i < b.length),
          (a.get ⟨i, ha⟩).re = (b.get ⟨i, hb⟩).re ∧
          (a.get ⟨i, ha⟩).im = (b.get ⟨i, hb⟩).im)) := by
  constructor
  · intro hne
    unfold ComplexShortArray.equals
    simp [hne]
  · intro heq
    have hs : ComplexShortArray.equals a b = ComplexShortArray.equalsLoop a b := by
      unfold ComplexShortArray.equals
      rw [if_neg (by omega)]
    rw [hs]
    exact equalsLoop_eq_true_iff a b heq

/-- Witness for C4 at concrete arrays. -/
theorem equals_spec_witness :
    ((([⟨1, 2⟩] : List ComplexShort).length ≠ ([] : List ComplexShort).length →
      ComplexShortArray.equals [⟨1, 2⟩] [] = false) ∧
    (([⟨1, 2⟩] : List ComplexShort).length = ([] : List ComplexShort).length →
      (ComplexShortArray.equals [⟨1, 2⟩] [] = true ↔
        ∀ (i : ℕ) (ha : i < ([⟨1, 2⟩] : List ComplexShort).length)
          (hb : i < ([] : List ComplexShort).length),
          (([⟨1, 2⟩] : List ComplexShort).get ⟨i, ha⟩).re =
            (([] : List ComplexShort).get ⟨i, hb⟩).re ∧
          (([⟨1, 2⟩] : List ComplexShort).get ⟨i, ha⟩).im =
            (([] : List ComplexShort).get ⟨i, hb⟩).im))) :=
  equals_spec [⟨1, 2⟩] []

/-- C10: a default-constructed array has size 0; `equals` between two
default-constructed arrays is `true`, and `equals` between a
default-constructed array and any array of nonzero size is `false`. -/
theorem default_array_spec :
    ComplexShortArray.getSize ComplexShortArray.defaultArray = 0 ∧
    ComplexShortArray.equals ComplexShortArray.defaultArray
      ComplexShortArray.defaultArray = true ∧
    ∀ b : List ComplexShort, b.length ≠ 0 →
      ComplexShortArray.equals ComplexShortArray.defaultArray b = false := by
  refine ⟨rfl, rfl, ?_⟩
  intro b hb
  unfold ComplexShortArray.equals ComplexShortArray.defaultArray
  simp [hb.symm]

/-- Witness for C10 at a concrete nonzero-size array. -/
theorem default_array_spec_witness :
    ComplexShortArray.equals ComplexShortArray.defaultArray [⟨3, 4⟩] = false :=
  default_array_spec.2.2 [⟨3, 4⟩] (by decide)

/-!
## Precision widening / narrowing between `ComplexIntArray` and `ComplexShortArray`

The CMSIS calls in `ComplexIntArray::copyFrom` / `copyTo` / `add` reinterpret
the complex buffers as flat interleaved streams `re, im, re, im, ...` of
`size * 2` machine integers.  `flattenS` / `flattenI` and `unflattenS` /
`unflattenI` embed that reinterpretation.
-/

/-- The interleaved `int16_t` stream a `ComplexShort` buffer holds. -/
def flattenS : List ComplexShort → List ℤ
  | [] => []
  | c :: rest => c.re :: c.im :: flattenS rest

/-- The interleaved `int32_t` stream a `ComplexInt` buffer holds. -/
def flattenI : List ComplexInt → List ℤ
  | [] => []
  | c :: rest => c.re :: c.im :: flattenI rest

/-- Reading an interleaved `int16_t` stream back as `ComplexShort` elements. -/
def unflattenS : List ℤ → List ComplexShort
  | a :: b :: rest => ⟨a, b⟩ :: unflattenS rest
  | _ => []

/-- Reading an interleaved `int32_t` stream back as `ComplexInt` elements. -/
def unflattenI : List ℤ → List ComplexInt
  | a :: b :: rest => ⟨a, b⟩ :: unflattenI rest
  | _ => []

/-- Modelled from the spec: the hardware widening conversion `arm_q15_to_q31`
(not part of the repository).  The spec describes the widen as a scale by
`2^16` per value: each `q15` input becomes the `q31` value `x * 2^16`. -/
def arm_q15_to_q31 (xs : List ℤ) : List ℤ :=
  xs.map (fun x => x * 2 ^ 16)

/-- Modelled from the spec: the hardware narrowing conversion `arm_q31_to_q15`
(not part of the repository).  The spec describes the narrow as a truncation:
the low 16 bits are discarded (an arithmetic shift right by 16, i.e. floor
division) and the result is held in an `int16_t`. -/
def arm_q31_to_q15 (xs : List ℤ) : List ℤ :=
  xs.map (fun x => wrap16 (Int.fdiv x (2 ^ 16)))

/-- Modelled from the spec: the hardware saturating vector add `arm_add_q31`
(not part of the repository), a `q31` saturating addition per value. -/
def arm_add_q31 (xs ys : List ℤ) : List ℤ :=
  List.zipWith (fun x y => max (-(2 ^ 31)) (min (2 ^ 31 - 1) (x + y))) xs ys

namespace ComplexIntArray

/-- `ComplexIntArray::copyFrom` on the `ARM_CORTEX` path (source lines
552-553): `arm_q15_to_q31` converts `size * 2` values from `operand2`'s
buffer into this array's buffer, `size` being this array's size. -/
def copyFrom_arm (thisA : List ComplexInt) (op2 : List ComplexShort) :
    List ComplexInt :=
  unflattenI (arm_q15_to_q31 ((flattenS op2).take (2 * thisA.length)))

/-- `ComplexIntArray::copyTo` on the `ARM_CORTEX` path (source lines
563-564): `arm_q31_to_q15` converts `size * 2` values from this array's
buffer into `operand2`'s buffer.  The result is the final pair
(this array's region, `operand2`'s region); elements of `operand2` past
this array's size are untouched. -/
def copyTo_arm (thisA : List ComplexInt) (op2 : List ComplexShort) :
    List ComplexInt × List ComplexShort :=
  (thisA, unflattenS (arm_q31_to_q15 (flattenI thisA)) ++ op2.drop thisA.length)

/-- `ComplexIntArray::copyFrom` on the portable path (source lines 555-558):
`data[n].re = operand2[n].re; data[n].im = operand2[n].im;` for
`n < size` — a plain widening assignment of each component. -/
def copyFrom_scalar (thisA : List ComplexInt) (op2 : List ComplexShort) :
    List ComplexInt :=
  (List.range thisA.length).map
    (fun n => (⟨(op2.getD n ⟨0, 0⟩).re, (op2.getD n ⟨0, 0⟩).im⟩ : ComplexInt))

/-- `ComplexIntArray::copyTo` on the portable path (source lines 566-568):
`data[n].re = (int16_t)operand2[n].re; data[n].im = (int16_t)operand2[n].im;`
for `n < size` — the assignments write into `data` (this array's buffer) and
read from `operand2`, so `operand2` is returned unchanged.  The cast
`(int16_t)` of a value already held in an `int16_t` field is the identity. -/
def copyTo_scalar (thisA : List ComplexInt) (op2 : List ComplexShort) :
    List ComplexInt × List ComplexShort :=
  ((List.range thisA.length).map
    (fun n => (⟨wrap16 (op2.getD n ⟨0, 0⟩).re, wrap16 (op2.getD n ⟨0, 0⟩).im⟩ :
      ComplexInt)), op2)

end ComplexIntArray

theorem flattenS_length (l : List ComplexShort) :
    (flattenS l).length = 2 * l.length := by
  induction l with
  | nil => rfl
  | cons c rest ih => simp [flattenS, ih]; omega

theorem unflattenI_map_flattenS (f : ℤ → ℤ) (l : List ComplexShort) :
    unflattenI ((flattenS l).map f) =
      l.map (fun c => (⟨f c.re, f c.im⟩ : ComplexInt)) := by
  induction l with
  | nil => rfl
  | cons c rest ih => simp [flattenS, unflattenI, ih]

theorem unflattenS_map_flattenI (f : ℤ → ℤ) (l : List ComplexInt) :
    unflattenS ((flattenI l).map f) =
      l.map (fun c => (⟨f c.re, f c.im⟩ : ComplexShort)) := by
  induction l with
  | nil => rfl
  | cons c rest ih => simp [flattenI, unflattenS, ih]

theorem copyFrom_arm_eq (W : List ComplexInt) (A : List ComplexShort)
    (h : W.length = A.length) :
    ComplexIntArray.copyFrom_arm W A =
      A.map (fun c => (⟨c.re * 2 ^ 16, c.im * 2 ^ 16⟩ : ComplexInt)) := by
  unfold ComplexIntArray.copyFrom_arm arm_q15_to_q31
  rw [h, ← flattenS_length, List.take_length]
  exact unflattenI_map_flattenS _ A

theorem copyTo_arm_eq (W : List ComplexInt) (A : List ComplexShort)
    (h : W.length = A.length) :
    (ComplexIntArray.copyTo_arm W A).2 =
      W.map (fun c =>
        (⟨wrap16 (Int.fdiv c.re (2 ^ 16)), wrap16 (Int.fdiv c.im (2 ^ 16))⟩ :
          ComplexShort)) := by
  unfold ComplexIntArray.copyTo_arm arm_q31_to_q15
  have hd : A.drop W.length = [] := by
    rw [h]; exact List.drop_length A
  simp only [hd, List.append_nil]
  exact unflattenS_map_flattenI _ W

/-- C2: on the operative (`ARM_CORTEX`) path, for equal-size arrays
`copyFrom` widens each element by scaling both components by `2^16`, and
`copyTo` narrows each element by truncating each 32-bit component (discard
the low 16 bits, keep the value the `int16_t` destination holds) into the
corresponding element of the destination array. -/
theorem copyFrom_copyTo_arm_spec (W : List ComplexInt) (A : List ComplexShort)
    (h : W.length = A.length) :
    ComplexIntArray.copyFrom_arm W A =
      A.map (fun c => (⟨c.re * 2 ^ 16, c.im * 2 ^ 16⟩ : ComplexInt)) ∧
    (ComplexIntArray.copyTo_arm W A).2 =
      W.map (fun c =>
        (⟨wrap16 (Int.fdiv c.re (2 ^ 16)), wrap16 (Int.fdiv c.im (2 ^ 16))⟩ :
          ComplexShort)) :=
  ⟨copyFrom_arm_eq W A h, copyTo_arm_eq W A h⟩

/-- Witness for C2 at concrete equal-size arrays. -/
theorem copyFrom_copyTo_arm_spec_witness :
    ComplexIntArray.copyFrom_arm [⟨0, 0⟩] [⟨1, -2⟩] =
      ([⟨1, -2⟩] : List ComplexShort).map
        (fun c => (⟨c.re * 2 ^ 16, c.im * 2 ^ 16⟩ : ComplexInt)) ∧
    (ComplexIntArray.copyTo_arm [⟨0, 0⟩] [⟨1, -2⟩]).2 =
      ([⟨0, 0⟩] : List ComplexInt).map
        (fun c =>
          (⟨wrap16 (Int.fdiv c.re (2 ^ 16)), wrap16 (Int.fdiv c.im (2 ^ 16))⟩ :
            ComplexShort)) :=
  copyFrom_copyTo_arm_spec [⟨0, 0⟩] [⟨1, -2⟩] (by decide)

theorem equals_refl (a : List ComplexShort) :
    ComplexShortArray.equals a a = true := by
  unfold ComplexShortArray.equals
  rw [if_neg (by omega)]
  induction a with
  | nil => rfl
  | cons c rest ih => simpa [ComplexShortArray.equalsLoop] using ih

/-- C1: on the operative (`ARM_CORTEX`) path, widening a `ComplexShortArray`
`A` whose element values are within 16-bit range into an equal-size
`ComplexIntArray` via `copyFrom` and narrowing back into an equal-size
`ComplexShortArray` via `copyTo` reproduces `A` exactly, so `equals` on the
result and `A` returns `true`. -/
theorem widen_narrow_roundtrip (A A2 : List ComplexShort) (W : List ComplexInt)
    (hW : W.length = A.length) (hA2 : A2.length = A.length)
    (hrange : ∀ c ∈ A, inRange16 c.re ∧ inRange16 c.im) :
    ComplexShortArray.equals
      (ComplexIntArray.copyTo_arm (ComplexIntArray.copyFrom_arm W A) A2).2 A =
      true := by
  have hfrom := copyFrom_arm_eq W A hW
  have hlen : (ComplexIntArray.copyFrom_arm W A).length = A.length := by
    rw [hfrom, List.length_map]
  have hto := copyTo_arm_eq (ComplexIntArray.copyFrom_arm W A) A2
    (by rw [hlen, hA2])
  rw [hto, hfrom, List.map_map]
  have : ∀ c ∈ A,
      ((fun c => (⟨wrap16 (Int.fdiv c.re (2 ^ 16)), wrap16 (Int.fdiv c.im (2 ^ 16))⟩ :
        ComplexShort)) ∘
      (fun c => (⟨c.re * 2 ^ 16, c.im * 2 ^ 16⟩ : ComplexInt))) c = c := by
    intro c hc
    obtain ⟨hre, him⟩ := hrange c hc
    have h16 : (2 ^ 16 : ℤ) ≠ 0 := by decide
    simp only [Function.comp_apply]
    rw [Int.mul_fdiv_cancel _ h16, Int.mul_fdiv_cancel _ h16,
      wrap16_eq_self hre, wrap16_eq_self him]
  rw [List.map_congr_left this]
  simpa using equals_refl A

/-- Witness for C1 at concrete arrays. -/
theorem widen_narrow_roundtrip_witness :
    ComplexShortArray.equals
      (ComplexIntArray.copyTo_arm
        (ComplexIntArray.copyFrom_arm [⟨0, 0⟩] [⟨32767, -32768⟩]) [⟨5, 5⟩]).2
      [⟨32767, -32768⟩] = true :=
  widen_narrow_roundtrip [⟨32767, -32768⟩] [⟨5, 5⟩] [⟨0, 0⟩]
    (by decide) (by decide) (by decide)

/-- C3 (failing input): the hardware path and the portable scalar path of
`ComplexIntArray::copyFrom` and `copyTo` do not produce identical results.
With `W = [{65536, 131072}]` and destination `A2 = [{7, 9}]`, the hardware
`copyTo` writes `[{1, 2}]` into the destination and leaves `W` untouched,
while the portable loop leaves the destination untouched and instead
overwrites `W` from it; and the hardware `copyFrom` of `A = [{1, 2}]` scales
by `2^16` while the portable loop copies the values unscaled. -/
theorem copy_paths_diverge :
    (ComplexIntArray.copyTo_arm [⟨65536, 131072⟩] [⟨7, 9⟩]).2 = [⟨1, 2⟩] ∧
    (ComplexIntArray.copyTo_scalar [⟨65536, 131072⟩] [⟨7, 9⟩]).2 = [⟨7, 9⟩] ∧
    (ComplexIntArray.copyTo_scalar [⟨65536, 131072⟩] [⟨7, 9⟩]).1 = [⟨7, 9⟩] ∧
    ComplexIntArray.copyFrom_arm [⟨0, 0⟩] [⟨1, 2⟩] = [⟨65536, 131072⟩] ∧
    ComplexIntArray.copyFrom_scalar [⟨0, 0⟩] [⟨1, 2⟩] = [⟨1, 2⟩] := by
  refine ⟨?_, rfl, ?_, ?_, ?_⟩ <;> decide

/-!
## `ComplexIntArray::add` and its in-place variant

The portable loop (source lines 540-543) writes `destination[n] = data[n] +
operand2[n]` in ascending index order.  When the destination aliases this
array — which is exactly what the in-place overload `add(operand2)` does by
passing `*this` as the destination — each iteration's reads of `data[n]`
observe the writes of the earlier iterations.  Both executions are embedded
below: `addIter` reads from the frozen source buffer, `addIterAliased` reads
from the evolving buffer.
-/

/-- Componentwise complex sum, the body of the portable add loop
(source lines 541-542). -/
def ComplexInt.cadd (x y : ComplexInt) : ComplexInt :=
  ⟨x.re + y.re, x.im + y.im⟩

namespace ComplexIntArray

/-- The first `n` iterations of the portable add loop with a destination
buffer distinct from this array's buffer: reads come from the original
`thisA` and `op2`. -/
def addIter (thisA op2 dst : List ComplexInt) : ℕ → List ComplexInt
  | 0 => dst
  | n + 1 =>
    (addIter thisA op2 dst n).set n
      (ComplexInt.cadd (thisA.getD n ⟨0, 0⟩) (op2.getD n ⟨0, 0⟩))

/-- `ComplexIntArray::add(operand2, destination)`, portable path, with a
destination that does not alias this array: the loop runs for `size` (this
array's size) iterations. -/
def add_scalar (thisA op2 dst : List ComplexInt) : List ComplexInt :=
  addIter thisA op2 dst thisA.length

/-- The first `n` iterations of the same loop when the destination aliases
this array's buffer: reads of `data[n]` and writes of `destination[n]` both
hit the single evolving buffer. -/
def addIterAliased (op2 a : List ComplexInt) : ℕ → List ComplexInt
  | 0 => a
  | n + 1 =>
    let d := addIterAliased op2 a n
    d.set n (ComplexInt.cadd (d.getD n ⟨0, 0⟩) (op2.getD n ⟨0, 0⟩))

/-- `ComplexIntArray::add(operand2)` (source lines 547-549): defined as
`add(operand2, *this)`, i.e. the loop with the destination aliasing this
array's buffer. -/
def add_inplace_scalar (a op2 : List ComplexInt) : List ComplexInt :=
  addIterAliased op2 a a.length

end ComplexIntArray

theorem addIter_length (thisA op2 dst : List ComplexInt) (n : ℕ) :
    (ComplexIntArray.addIter thisA op2 dst n).length = dst.length := by
  induction n with
  | zero => rfl
  | succ n ih => rw [ComplexIntArray.addIter, List.length_set, ih]

theorem addIter_getElem?_ge (thisA op2 dst : List ComplexInt) (n k : ℕ)
    (h : n ≤ k) :
    (ComplexIntArray.addIter thisA op2 dst n)[k]? = dst[k]? := by
  induction n with
  | zero => rfl
  | succ n ih =>
    rw [ComplexIntArray.addIter, List.getElem?_set_ne (by omega),
      ih (by omega)]

theorem addIterAliased_eq_addIter (op2 a : List ComplexInt) (n : ℕ) :
    ComplexIntArray.addIterAliased op2 a n =
      ComplexIntArray.addIter a op2 a n := by
  induction n with
  | zero => rfl
  | succ n ih =>
    rw [ComplexIntArray.addIterAliased, ComplexIntArray.addIter]
    simp only [ih]
    have : (ComplexIntArray.addIter a op2 a n).getD n ⟨0, 0⟩ =
        a.getD n ⟨0, 0⟩ := by
      rw [List.getD_eq_getElem?_getD, List.getD_eq_getElem?_getD,
        addIter_getElem?_ge a op2 a n n le_rfl]
    rw [this]

theorem addIter_getElem?_lt (thisA op2 dst : List ComplexInt) (n k : ℕ)
    (hk : k < n) (hd : k < dst.length) :
    (ComplexIntArray.addIter thisA op2 dst n)[k]? =
      some (ComplexInt.cadd (thisA.getD k ⟨0, 0⟩) (op2.getD k ⟨0, 0⟩)) := by
  induction n with
  | zero => omega
  | succ n ih =>
    rw [ComplexIntArray.addIter]
    by_cases hkn : k = n
    · subst hkn
      exact List.getElem?_set_eq_of_lt _ (by rw [addIter_length]; exact hd)
    · rw [List.getElem?_set_ne (by omega)]
      exact ih (by omega)

/-- C9: the in-place variant `add(operand2)` — the add loop executed with
the destination aliasing this array's buffer — produces exactly the same
final buffer as the two-operand loop reading from a frozen copy of this
array and writing into it, namely the elementwise complex sum. -/
theorem add_inplace_eq_add (a b : List ComplexInt) (h : a.length = b.length) :
    ComplexIntArray.add_inplace_scalar a b = ComplexIntArray.add_scalar a b a ∧
    ComplexIntArray.add_inplace_scalar a b = List.zipWith ComplexInt.cadd a b := by
  have hdest : ComplexIntArray.add_scalar a b a =
      List.zipWith ComplexInt.cadd a b := by
    apply List.ext_getElem?
    intro i
    by_cases hi : i < a.length
    · rw [ComplexIntArray.add_scalar,
        addIter_getElem?_lt a b a a.length i hi hi]
      have ha : a[i]? = some (a.getD i ⟨0, 0⟩) := by
        rw [List.getD_eq_getElem?_getD, List.getElem?_eq_getElem hi]
        rfl
      have hb : b[i]? = some (b.getD i ⟨0, 0⟩) := by
        rw [List.getD_eq_getElem?_getD, List.getElem?_eq_getElem (by omega)]
        rfl
      rw [List.getElem?_zipWith, ha, hb]
    · have ha : a[i]? = none := List.getElem?_eq_none (by omega)
      have hb : b[i]? = none := List.getElem?_eq_none (by omega)
      rw [ComplexIntArray.add_scalar,
        addIter_getElem?_ge a b a a.length i (by omega),
        List.getElem?_zipWith, ha, hb]
  have halias : ComplexIntArray.add_inplace_scalar a b =
      ComplexIntArray.add_scalar a b a :=
    addIterAliased_eq_addIter b a a.length
  exact ⟨halias, halias.trans hdest⟩

/-- Witness for C9 at concrete equal-size arrays. -/
theorem add_inplace_eq_add_witness :
    (ComplexIntArray.add_inplace_scalar [⟨1, 2⟩, ⟨3, 4⟩] [⟨10, 20⟩, ⟨30, 40⟩] =
      ComplexIntArray.add_scalar [⟨1, 2⟩, ⟨3, 4⟩] [⟨10, 20⟩, ⟨30, 40⟩]
        [⟨1, 2⟩, ⟨3, 4⟩]) ∧
    ComplexIntArray.add_inplace_scalar [⟨1, 2⟩, ⟨3, 4⟩] [⟨10, 20⟩, ⟨30, 40⟩] =
      List.zipWith ComplexInt.cadd [⟨1, 2⟩, ⟨3, 4⟩] [⟨10, 20⟩, ⟨30, 40⟩] :=
  add_inplace_eq_add [⟨1, 2⟩, ⟨3, 4⟩] [⟨10, 20⟩, ⟨30, 40⟩] (by decide)

/-!
## The `ComplexShort` scalar: magnitude, phase, polar conversion

`getPhase`, `setPolar` and the magnitude primitive live in floating point in
the C source; the mathematical functions they call (`atan2`, `cosf`, `sinf`,
and the square root inside the CMSIS magnitude primitive) are external to the
repository and are embedded as the exact real functions the spec describes.
The integer steps around them (the `+ 0.5`, the truncating casts, the final
shift) are taken from the source.
-/

/-- Truncation toward zero: the value a C cast from a floating-point value to
an integer type produces (used by `setPolar`, source lines 78-79). -/
noncomputable def truncToZero (x : ℝ) : ℤ :=
  if 0 ≤ x then ⌊x⌋ else ⌈x⌉

theorem truncToZero_eval_nonneg (x : ℝ) (n : ℤ) (h0 : 0 ≤ x)
    (h1 : (n : ℝ) ≤ x) (h2 : x < n + 1) : truncToZero x = n := by
  unfold truncToZero
  rw [if_pos h0]
  exact Int.floor_eq_iff.mpr ⟨h1, h2⟩

namespace ComplexShort

/-- `ComplexShort::getPhase` (source lines 48-50): `atan2(im, re)`.  Modelled
from the spec: the C library `atan2` (external to the repository) is the
principal-value angle of the point `(re, im)`, i.e. the complex argument. -/
noncomputable def getPhase (v : ComplexShort) : ℝ :=
  Complex.arg ⟨(v.re : ℝ), (v.im : ℝ)⟩

/-- Modelled from the spec: the hardware magnitude primitive
`arm_cmplx_mag_q15` (external to the repository).  Per the source comment
(line 32) its output is in Q2.14 format while the operands are Q1.15, so in
raw integer units the returned value is the rounded `sqrt(re^2 + im^2) / 2`. -/
noncomputable def arm_cmplx_mag_q15 (re im : ℤ) : ℤ :=
  round (Real.sqrt ((re : ℝ) ^ 2 + (im : ℝ) ^ 2) / 2)

/-- `ComplexShort::getMagnitude` (source lines 27-41), `ARM_CORTEX` path (the
only branch that compiles; the portable branch is `#error TODO`): the
primitive's output is shifted right by one, `out = out >> 1`, an arithmetic
shift, i.e. floor division by 2. -/
noncomputable def getMagnitude (v : ComplexShort) : ℤ :=
  Int.fdiv (arm_cmplx_mag_q15 v.re v.im) 2

/-- The magnitude the spec's data model asserts: `round(sqrt(re^2 + im^2))`
in the same raw fixed-point units as `re` and `im`. -/
noncomputable def getMagnitude_specside (v : ComplexShort) : ℤ :=
  round (Real.sqrt ((v.re : ℝ) ^ 2 + (v.im : ℝ) ^ 2))

/-- `ComplexShort::setPolar` (source lines 77-80):
`re = (int16_t)(magnitude*cosf(phase) + 0.5)` and likewise with `sinf` for
`im`.  Modelled from the spec: `cosf` / `sinf` (external to the repository)
are the cosine and sine; the cast truncates toward zero. -/
noncomputable def setPolar (m : ℤ) (p : ℝ) : ComplexShort :=
  ⟨truncToZero ((m : ℝ) * Real.cos p + 0.5),
   truncToZero ((m : ℝ) * Real.sin p + 0.5)⟩

/-- `ComplexShort::setPhase` (source lines 57-60): reread the magnitude from
the current value, then `setPolar` with it and the new phase. -/
noncomputable def setPhase (v : ComplexShort) (p : ℝ) : ComplexShort :=
  setPolar (getMagnitude v) p

/-- `ComplexShort::setMagnitude` (source lines 67-70): reread the phase from
the current value, then `setPolar` with the new magnitude and it. -/
noncomputable def setMagnitude (v : ComplexShort) (m : ℤ) : ComplexShort :=
  setPolar m (getPhase v)

/-- The claim's reading of `setPolar`: componentwise truncation toward zero
of `m·cos(p) + 0.5` and `m·sin(p) + 0.5`, with no saturation applied. -/
noncomputable def setPolar_specside (m : ℤ) (p : ℝ) : ComplexShort :=
  ⟨truncToZero ((m : ℝ) * Real.cos p + 1 / 2),
   truncToZero ((m : ℝ) * Real.sin p + 1 / 2)⟩

end ComplexShort

theorem sqrt_twentyfive : Real.sqrt 25 = 5 := by
  rw [show (25 : ℝ) = 5 ^ 2 by norm_num, Real.sqrt_sq (by norm_num : (0:ℝ) ≤ 5)]

theorem sqrt_four : Real.sqrt 4 = 2 := by
  rw [show (4 : ℝ) = 2 ^ 2 by norm_num, Real.sqrt_sq (by norm_num : (0:ℝ) ≤ 2)]

theorem round_five_half : round ((5 : ℝ) / 2) = 3 := by
  rw [round_eq, show (5 : ℝ) / 2 + 1 / 2 = ((3 : ℤ) : ℝ) by norm_num,
    Int.floor_intCast]

/-- C7 (failing input): `getMagnitude` does not return the rounded
`sqrt(re^2 + im^2)` in the element's own fixed-point range.  At `{re 3, im 4}`
the Q2.14 primitive output is `round(5/2) = 3` and the code's right-shift
(`>> 1`, where converting Q2.14 to Q1.15 would require a left shift) yields
`1`, while the magnitude the claim describes is `5`. -/
theorem getMagnitude_three_four : ComplexShort.getMagnitude ⟨3, 4⟩ = 1 := by
  unfold ComplexShort.getMagnitude ComplexShort.arm_cmplx_mag_q15
  rw [show (((3 : ℤ) : ℝ)) ^ 2 + (((4 : ℤ) : ℝ)) ^ 2 = 25 by norm_num,
    sqrt_twentyfive, round_five_half]
  decide

theorem getMagnitude_shift_bug :
    ComplexShort.getMagnitude ⟨3, 4⟩ = 1 ∧
    ComplexShort.getMagnitude_specside ⟨3, 4⟩ = 5 := by
  refine ⟨getMagnitude_three_four, ?_⟩
  unfold ComplexShort.getMagnitude_specside
  rw [show (((3 : ℤ) : ℝ)) ^ 2 + (((4 : ℤ) : ℝ)) ^ 2 = 25 by norm_num,
    sqrt_twentyfive, show (5 : ℝ) = ((5 : ℤ) : ℝ) by norm_num, round_intCast]

/-- The complex number `3 + 4i` used as the failing input. -/
theorem cos_sin_arg_three_four :
    Real.cos (Complex.arg ⟨3, 4⟩) = 3 / 5 ∧
    Real.sin (Complex.arg ⟨3, 4⟩) = 4 / 5 := by
  have hz : (⟨3, 4⟩ : ℂ) ≠ 0 := by
    intro h
    have := congrArg Complex.re h
    simp [Complex.zero_re] at this
  have habs : Complex.abs ⟨3, 4⟩ = 5 := by
    rw [Complex.abs_apply, Complex.normSq_mk]
    rw [show (3 : ℝ) * 3 + 4 * 4 = 25 by norm_num]
    exact sqrt_twentyfive
  constructor
  · rw [Complex.cos_arg hz, habs]
  · rw [Complex.sin_arg, habs]

/-- C5 (failing input): the phase round-trip `v.setPhase(v.getPhase())` is
not a no-op.  At `v = {re 3, im 4}` the rereading of the magnitude returns
`1` (the corrective shift of the magnitude primitive goes the wrong way, see
`getMagnitude_shift_bug`), and the value becomes `{re 1, im 1}`. -/
theorem setPhase_getPhase_not_noop :
    ComplexShort.setPhase ⟨3, 4⟩ (ComplexShort.getPhase ⟨3, 4⟩) = ⟨1, 1⟩ := by
  have hmag : ComplexShort.getMagnitude ⟨3, 4⟩ = 1 := getMagnitude_three_four
  unfold ComplexShort.setPhase
  rw [hmag]
  unfold ComplexShort.setPolar ComplexShort.getPhase
  obtain ⟨hcos, hsin⟩ := cos_sin_arg_three_four
  have hre : (((3 : ℤ) : ℝ)) = 3 := by norm_num
  have him : (((4 : ℤ) : ℝ)) = 4 := by norm_num
  simp only [hre, him, hcos, hsin, Int.cast_one, one_mul]
  have h1 : truncToZero ((3 : ℝ) / 5 + 0.5) = 1 :=
    truncToZero_eval_nonneg _ 1 (by norm_num) (by norm_num) (by norm_num)
  have h2 : truncToZero ((4 : ℝ) / 5 + 0.5) = 1 :=
    truncToZero_eval_nonneg _ 1 (by norm_num) (by norm_num) (by norm_num)
  rw [h1, h2]

/-- C6: setting the magnitude and the phase through the two compose-by-reread
setters is not the same as one `setPolar` call with both values: starting
from `{re 1, im 0}` with magnitude 2 and phase 0, the two-call sequence ends
at `{re 0, im 0}` while `setPolar(2, 0)` produces `{re 2, im 0}`. -/
theorem compose_by_reread_not_setPolar :
    ∃ (v : ComplexShort) (m : ℤ) (p : ℝ),
      ComplexShort.setPhase (ComplexShort.setMagnitude v m) p ≠
        ComplexShort.setPolar m p := by
  refine ⟨⟨1, 0⟩, 2, 0, ?_⟩
  have harg : Complex.arg ⟨(((1 : ℤ) : ℝ)), (((0 : ℤ) : ℝ))⟩ = 0 := by
    rw [show (⟨(((1 : ℤ) : ℝ)), (((0 : ℤ) : ℝ))⟩ : ℂ) = 1 by
      apply Complex.ext <;> simp]
    exact Complex.arg_one
  have hsetmag : ComplexShort.setMagnitude ⟨1, 0⟩ 2 = ⟨2, 0⟩ := by
    unfold ComplexShort.setMagnitude ComplexShort.getPhase
    rw [harg]
    unfold ComplexShort.setPolar
    rw [Real.cos_zero, Real.sin_zero]
    have h1 : truncToZero (((2 : ℤ) : ℝ) * 1 + 0.5) = 2 :=
      truncToZero_eval_nonneg _ 2 (by norm_num) (by norm_num) (by norm_num)
    have h2 : truncToZero (((2 : ℤ) : ℝ) * 0 + 0.5) = 0 :=
      truncToZero_eval_nonneg _ 0 (by norm_num) (by norm_num) (by norm_num)
    rw [h1, h2]
  rw [hsetmag]
  have hmag : ComplexShort.getMagnitude ⟨2, 0⟩ = 0 := by
    unfold ComplexShort.getMagnitude ComplexShort.arm_cmplx_mag_q15
    rw [show (((2 : ℤ) : ℝ)) ^ 2 + (((0 : ℤ) : ℝ)) ^ 2 = 4 by norm_num,
      sqrt_four, show (2 : ℝ) / 2 = 1 by norm_num, round_one]
    decide
  unfold ComplexShort.setPhase
  rw [hmag]
  unfold ComplexShort.setPolar
  rw [Real.cos_zero, Real.sin_zero]
  have h1 : truncToZero (((0 : ℤ) : ℝ) * 1 + 0.5) = 0 :=
    truncToZero_eval_nonneg _ 0 (by norm_num) (by norm_num) (by norm_num)
  have h2 : truncToZero (((0 : ℤ) : ℝ) * 0 + 0.5) = 0 :=
    truncToZero_eval_nonneg _ 0 (by norm_num) (by norm_num) (by norm_num)
  have h3 : truncToZero (((2 : ℤ) : ℝ) * 1 + 0.5) = 2 :=
    truncToZero_eval_nonneg _ 2 (by norm_num) (by norm_num) (by norm_num)
  rw [h1, h2, h3]
  intro h
  have := congrArg ComplexShort.re h
  simp at this

/-- C8: `setPolar(m, p)` sets `re` to the truncation toward zero of
`m·cos(p) + 0.5` and `im` to the truncation toward zero of `m·sin(p) + 0.5`,
and applies no saturation: at `m = -32768`, `p = π` the real part becomes
`32768`, above the largest `int16_t` value. -/
theorem setPolar_spec :
    (∀ (m : ℤ) (p : ℝ),
      ComplexShort.setPolar m p = ComplexShort.setPolar_specside m p) ∧
    ComplexShort.setPolar (-32768) Real.pi = ⟨32768, 0⟩ ∧
    ¬ inRange16 32768 := by
  refine ⟨?_, ?_, by decide⟩
  · intro m p
    unfold ComplexShort.setPolar ComplexShort.setPolar_specside
    norm_num
  · unfold ComplexShort.setPolar
    rw [Real.cos_pi, Real.sin_pi]
    have h1 : truncToZero ((((-32768) : ℤ) : ℝ) * (-1) + 0.5) = 32768 :=
      truncToZero_eval_nonneg _ 32768 (by norm_num) (by norm_num) (by norm_num)
    have h2 : truncToZero ((((-32768) : ℤ) : ℝ) * 0 + 0.5) = 0 :=
      truncToZero_eval_nonneg _ 0 (by norm_num) (by norm_num) (by norm_num)
    rw [h1, h2]

/-- Witness for C8's universally quantified part at concrete arguments. -/
theorem setPolar_spec_witness :
    ComplexShort.setPolar 5 0 = ComplexShort.setPolar_specside 5 0 :=
  setPolar_spec.1 5 0
